import Mathlib

/-!
Verification of the bbgtunnel server (`bbg_server.py`) against its
natural-language specification.

The development shallowly embeds the server's protocol core:
 * `JValue` models decoded JSON values (what `json.loads` produces).
 * `handle` models `ServerHandler.handle` after the request body has been
   decoded: shape resolution, the caught validation assertions, the
   truthiness guard, the call to `resolve`, and the reply write.
 * `resolveModel` models the `resolve` adapter over an abstract backend
   (session start, service open, and the paged event loop).
 * `emitJ` / `loads` model `json.dumps` / `json.loads` for the value
   shapes the server exchanges.
-/

/-- Decoded JSON value, as produced by `json.loads`. -/
inductive JValue where
  | jnull : JValue
  | jbool : Bool → JValue
  | jnum : Int → JValue
  | jstr : String → JValue
  | jarr : List JValue → JValue
  | jobj : List (String × JValue) → JValue

/-- Python truthiness of a decoded JSON value (`not x` is `pyFalsy x`). -/
def pyFalsy : JValue → Bool
  | .jnull => true
  | .jbool b => !b
  | .jnum n => n == 0
  | .jstr s => s.isEmpty
  | .jarr l => l.isEmpty
  | .jobj l => l.isEmpty

/-- Python `dict` lookup on the association list produced by parsing a JSON
object: a repeated key keeps the last value, as `json.loads` builds the dict
by successive insertion. -/
def objLookup (kvs : List (String × JValue)) (k : String) : Option JValue :=
  kvs.foldl (fun acc kv => if kv.1 == k then some kv.2 else acc) none

/-- The `isinstance(..., list) and all(isinstance(x, str) ...)` validation
check performed by the `assert` statements in `ServerHandler.handle`. -/
def isStrList : JValue → Bool
  | .jarr l => l.all (fun v => match v with | .jstr _ => true | _ => false)
  | _ => false

/-- Shape resolution of `ServerHandler.handle`: a dict needs both keys
`securities` and `fields` (a missing key raises `KeyError` before either
variable is assigned); a list must have exactly two elements (otherwise
unpacking raises `ValueError`); any other top-level value raises
`NotImplementedError`.  All three exceptions are caught and leave
`securities`/`fields` unassigned (`None`). -/
def extractPair : JValue → Option (JValue × JValue)
  | .jobj kvs =>
    match objLookup kvs "securities", objLookup kvs "fields" with
    | some s, some f => some (s, f)
    | _, _ => none
  | .jarr [s, f] => some (s, f)
  | _ => none

/-- Observable outcome of one exchange: the arguments `resolve` was invoked
with (if it was invoked) and the bytes written back to the client (if any). -/
structure HOut where
  resolverCall : Option (JValue × JValue)
  replyBytes : Option String

/-- A resolver behaviour, as seen by the handler: given the (not necessarily
validated) `securities` and `fields` values it either returns a value that
will be serialized with `json.dumps` (Python `resolve` returns `None` or a
dict) or produces no value at all (it raises or never returns). -/
def ResolverFun : Type := JValue → JValue → Option JValue

/-- Hex digit character (lowercase), as CPython's `json` encoder emits. -/
def hexDig (n : Nat) : Char :=
  if n < 10 then Char.ofNat (48 + n) else Char.ofNat (87 + n)

/-- `\uXXXX` escape for a code unit `n < 0x10000`. -/
def uEsc (n : Nat) : List Char :=
  ['\\', 'u', hexDig (n / 4096 % 16), hexDig (n / 256 % 16),
   hexDig (n / 16 % 16), hexDig (n % 16)]

/-- Escape of one character inside a JSON string, following CPython's
`json.dumps` with its default `ensure_ascii=True`: the two-character escapes
for quote, backslash and the common control characters, `\u00XX` for other
control characters, the character itself for printable ASCII, `\uXXXX` for
other characters of the Basic Multilingual Plane, and a surrogate pair for
characters beyond it. -/
def escChar (c : Char) : List Char :=
  if c.toNat = 34 then ['\\', '"']
  else if c.toNat = 92 then ['\\', '\\']
  else if c.toNat = 8 then ['\\', 'b']
  else if c.toNat = 12 then ['\\', 'f']
  else if c.toNat = 10 then ['\\', 'n']
  else if c.toNat = 13 then ['\\', 'r']
  else if c.toNat = 9 then ['\\', 't']
  else if c.toNat < 32 then uEsc c.toNat
  else if c.toNat < 127 then [c]
  else if c.toNat < 65536 then uEsc c.toNat
  else uEsc (55296 + (c.toNat - 65536) / 1024) ++ uEsc (56320 + (c.toNat - 65536) % 1024)

/-- Escape of a whole string body. -/
def escStr (s : String) : List Char :=
  s.data.foldr (fun c acc => escChar c ++ acc) []

/-- A JSON string literal: opening quote, escaped body, closing quote. -/
def quoteStr (s : String) : List Char :=
  '"' :: (escStr s ++ ['"'])

/-- Left brace / right brace characters. -/
def lbrace : Char := Char.ofNat 123

/-- Right brace character. -/
def rbrace : Char := Char.ofNat 125

mutual
/-- `json.dumps` with default separators, as a character list. -/
def emitJ : JValue → List Char
  | .jnull => ['n', 'u', 'l', 'l']
  | .jbool true => ['t', 'r', 'u', 'e']
  | .jbool false => ['f', 'a', 'l', 's', 'e']
  | .jnum n => (toString n).data
  | .jstr s => quoteStr s
  | .jarr xs => '[' :: (emitItems xs ++ [']'])
  | .jobj kvs => lbrace :: (emitMembers kvs ++ [rbrace])

/-- Array items joined by `", "` (the default item separator). -/
def emitItems : List JValue → List Char
  | [] => []
  | [v] => emitJ v
  | v :: vs => emitJ v ++ (',' :: ' ' :: emitItems vs)

/-- Object members `"key": value` joined by `", "`. -/
def emitMembers : List (String × JValue) → List Char
  | [] => []
  | [kv] => quoteStr kv.1 ++ (':' :: ' ' :: emitJ kv.2)
  | kv :: kvs => quoteStr kv.1 ++ (':' :: ' ' :: emitJ kv.2)
                   ++ (',' :: ' ' :: emitMembers kvs)
end

/-- `json.dumps` as a `String`. -/
def dumps (v : JValue) : String := String.mk (emitJ v)

/-- Model of `ServerHandler.handle` after the request body has been read and
decoded to a `JValue`.  Shape extraction failure, a falsy extracted value, or
a resolver that produces no value all end the exchange without a reply; the
`assert` validation failures are caught and — faithfully to the source — do
not stop the exchange by themselves. -/
def handle (resolver : ResolverFun) (req : JValue) : HOut :=
  match extractPair req with
  | none => ⟨none, none⟩
  | some (s, f) =>
    if pyFalsy s || pyFalsy f then ⟨none, none⟩
    else
      match resolver s f with
      | none => ⟨some (s, f), none⟩
      | some ret => ⟨some (s, f), some (dumps ret)⟩

/-- A field value stored in the aggregated result: `resolve` stores either
`field.getValueAsString()` (a string) or `list(field.values())` (modelled as
a list of string-encoded scalars) for array-valued fields. -/
inductive Value where
  | vstr : String → Value
  | varr : List String → Value

/-- The inner per-entity mapping, in Python-dict insertion order. -/
abbrev FieldMap := List (String × Value)

/-- The aggregated result `ret` of `resolve`: entity → field → value. -/
abbrev Agg := List (String × FieldMap)

/-- Python-dict insert/update `d[k] = v` on an association list: an existing
key keeps its position and gets the new value, a new key is appended.  (The
dicts the server builds never hold a duplicate key, so replacing the first
occurrence is exactly Python's behaviour.) -/
def updA {α : Type} : List (String × α) → String → α → List (String × α)
  | [], k, v => [(k, v)]
  | p :: t, k, v => if p.1 = k then (k, v) :: t else p :: updA t k v

/-- Association-list lookup (first match), i.e. Python `d[k]` on the dicts
built by `resolve`, whose keys are unique by construction. -/
def lookupA {α : Type} : List (String × α) → String → Option α
  | [], _ => none
  | p :: t, k => if p.1 = k then some p.2 else lookupA t k

/-- `k in d` membership test. -/
def hasKeyA {α : Type} (l : List (String × α)) (k : String) : Bool :=
  (lookupA l k).isSome

/-- One element of a message's `fieldData`, as `resolve` inspects it:
its name, its `isValid()` flag, its `isArray()` flag, and its payload. -/
structure FieldEntry where
  fname : String
  valid : Bool
  isArr : Bool
  arrValues : List String
  strValue : String

/-- One element of a message's `securityData`. -/
structure SecData where
  security : String
  fieldData : List FieldEntry

/-- One message of an event. -/
structure Msg where
  securityData : List SecData

/-- The event categories `resolve` distinguishes: `PARTIAL_RESPONSE`,
`RESPONSE`, and everything else (skipped by the `continue`). -/
inductive EType where
  | partResponse : EType
  | fullResponse : EType
  | otherEvt : EType
  deriving DecidableEq

/-- One event (page) delivered by `session.nextEvent`. -/
structure Page where
  etype : EType
  msgs : List Msg

/-- Processing of one `fieldData` element: invalid fields are skipped,
array fields store `list(field.values())`, scalar fields store
`field.getValueAsString()` — in either case `ret[secname][name] = value`. -/
def processField (ret : Agg) (sec : String) (fe : FieldEntry) : Agg :=
  if !fe.valid then ret
  else
    updA ret sec
      (updA ((lookupA ret sec).getD []) fe.fname
        (if fe.isArr then Value.varr fe.arrValues else Value.vstr fe.strValue))

/-- Processing of one `securityData` element: `if secname not in ret:
ret[secname] = {}`, then every field entry is processed. -/
def processSec (ret : Agg) (sd : SecData) : Agg :=
  let ret1 := if hasKeyA ret sd.security then ret else ret ++ [(sd.security, [])]
  sd.fieldData.foldl (fun r fe => processField r sd.security fe) ret1

/-- Processing of one message of an event. -/
def processMsg (ret : Agg) (m : Msg) : Agg :=
  m.securityData.foldl processSec ret

/-- Processing of one event (all its messages). -/
def processPage (ret : Agg) (p : Page) : Agg :=
  p.msgs.foldl processMsg ret

/-- The event loop of `resolve`: events that are neither `PARTIAL_RESPONSE`
nor `RESPONSE` are skipped; the others are merged into `ret`; the loop stops
after merging a `RESPONSE` event.  If the stream ends without a `RESPONSE`
the Python loop never terminates, modelled as `none`. -/
def runEvents : List Page → Agg → Option Agg
  | [], _ => none
  | p :: ps, acc =>
    match p.etype with
    | .otherEvt => runEvents ps acc
    | .partResponse => runEvents ps (processPage acc p)
    | .fullResponse => some (processPage acc p)

/-- The pages the event loop actually merges: skipped categories are
dropped, and nothing after the first `RESPONSE` is consumed. -/
def consumed : List Page → List Page
  | [] => []
  | p :: ps =>
    match p.etype with
    | .otherEvt => consumed ps
    | .partResponse => p :: consumed ps
    | .fullResponse => [p]

/-- Whether a page delivers a *valid* entry for field `f` of entity `e`. -/
def delivers (p : Page) (e f : String) : Bool :=
  p.msgs.any (fun m => m.securityData.any (fun sd =>
    sd.fieldData.any (fun fe =>
      decide (sd.security = e ∧ fe.fname = f ∧ fe.valid = true))))

/-- The value recorded for a field entry: `list(field.values())` for an
array field, `field.getValueAsString()` otherwise. -/
def feVal (fe : FieldEntry) : Value :=
  if fe.isArr then Value.varr fe.arrValues else Value.vstr fe.strValue

/-- Left-biased choice on `Option`: the first value if there is one. -/
def orD {α : Type} (x y : Option α) : Option α :=
  match x with
  | some v => some v
  | none => y

/-- Tracking step, field level: a valid entry for `(e, f)` overrides the
value seen so far. -/
def fStep (s e f : String) (acc : Option Value) (fe : FieldEntry) : Option Value :=
  if s = e ∧ fe.fname = f ∧ fe.valid = true then some (feVal fe) else acc

/-- Tracking step, securityData level. -/
def sdStep (e f : String) (acc : Option Value) (sd : SecData) : Option Value :=
  sd.fieldData.foldl (fStep sd.security e f) acc

/-- Tracking step, message level. -/
def mStep (e f : String) (acc : Option Value) (m : Msg) : Option Value :=
  m.securityData.foldl (sdStep e f) acc

/-- Tracking step, page level. -/
def pStep (e f : String) (acc : Option Value) (p : Page) : Option Value :=
  p.msgs.foldl (mStep e f) acc

/-- The last valid value delivered for field `f` of entity `e` across the
consumed pages, in processing order (`none` when nothing valid arrives). -/
def lastOf (evs : List Page) (e f : String) : Option Value :=
  (consumed evs).foldl (pStep e f) none

/-- Whether the aggregated result has an entry for field `f` of entity `e`. -/
def hasField (r : Agg) (e f : String) : Bool :=
  match lookupA r e with
  | some m => hasKeyA m f
  | none => false

/-- The value recorded for field `f` of entity `e`. -/
def lookupField (r : Agg) (e f : String) : Option Value :=
  (lookupA r e).bind (fun m => lookupA m f)

/-- The behaviour of the backend as `resolve` can observe it: whether
`session.start()` succeeds, whether `session.openService("//blp/refdata")`
succeeds, and the stream of events `session.nextEvent` hands back. -/
structure Backend where
  startOk : Bool
  openOk : Bool
  events : List Page

/-- What one call of `resolve` did: whether a session was started, whether
`session.stop()` was called before returning, and the value returned to the
caller (`none` when the call never returns because no terminal event
arrives). -/
structure ResolveOut where
  started : Bool
  stopped : Bool
  result : Option JValue

/-- Conversion of the aggregated `Agg` dict to the `JValue` that
`json.dumps` will serialize. -/
def valueToJ : Value → JValue
  | .vstr s => .jstr s
  | .varr xs => .jarr (xs.map .jstr)

/-- Conversion of the aggregated result to a decoded-JSON value. -/
def resultToJ (r : Agg) : JValue :=
  .jobj (r.map (fun p => (p.1, JValue.jobj (p.2.map (fun q => (q.1, valueToJ q.2))))))

/-- Model of `resolve`: failure of `session.start()` or of
`session.openService` logs and returns `None` (Python's bare `return`)
without stopping the session; otherwise the event loop runs inside
`try ... finally: session.stop()`, so a loop that reaches a `RESPONSE`
event stops the session and returns the dict, while a stream with no
`RESPONSE` event never exits the loop (and so never calls `stop`). -/
def resolveModel (b : Backend) (securities fields : List String) : ResolveOut :=
  if !b.startOk then ⟨false, false, some JValue.jnull⟩
  else if !b.openOk then ⟨true, false, some JValue.jnull⟩
  else
    match runEvents b.events [] with
    | some r => ⟨true, true, some (resultToJ r)⟩
    | none => ⟨true, false, none⟩

/-- The extracted `securities`/`fields` values as the list of strings
`resolve` iterates over, when they are JSON arrays of strings. -/
def asStrList : JValue → Option (List String)
  | .jarr l => l.foldr (fun v acc =>
      match v, acc with
      | .jstr s, some ss => some (s :: ss)
      | _, _ => none) (some [])
  | _ => none

/-- The resolver the real server wires into the handler: `resolve` against
backend `b`.  For argument values outside the model's scope (not arrays of
strings) no value is produced. -/
def backendResolver (b : Backend) : ResolverFun := fun s f =>
  match asStrList s, asStrList f with
  | some ss, some fs => (resolveModel b ss fs).result
  | _, _ => none

/-- The full server pipeline for one exchange, from decoded request to
written reply, against backend `b`. -/
def handleB (b : Backend) (req : JValue) : HOut :=
  handle (backendResolver b) req

/-- JSON whitespace accepted between tokens by `json.loads`. -/
def wsChar (c : Char) : Bool :=
  c == ' ' || c == '\t' || c == '\n' || c == '\r'

/-- Skip leading JSON whitespace. -/
def skipWs : List Char → List Char
  | [] => []
  | c :: cs => if wsChar c then skipWs cs else c :: cs

/-- Value of one hex digit (either case), used by `\uXXXX` decoding. -/
def hexVal (c : Char) : Option Nat :=
  let n := c.toNat
  if 48 ≤ n && n ≤ 57 then some (n - 48)
  else if 97 ≤ n && n ≤ 102 then some (n - 87)
  else if 65 ≤ n && n ≤ 70 then some (n - 55)
  else none

/-- Decoding of the two-character escapes of JSON strings. -/
def escDecode (c : Char) : Option Char :=
  if c = '"' then some '"'
  else if c = '\\' then some '\\'
  else if c = '/' then some '/'
  else if c = 'b' then some (Char.ofNat 8)
  else if c = 'f' then some (Char.ofNat 12)
  else if c = 'n' then some (Char.ofNat 10)
  else if c = 'r' then some (Char.ofNat 13)
  else if c = 't' then some (Char.ofNat 9)
  else none

/-- Four hex digits of a `\uXXXX` escape, combined into a code unit. -/
def parseHex4 : List Char → Option (Nat × List Char)
  | a :: b :: c :: d :: cs =>
    match hexVal a, hexVal b, hexVal c, hexVal d with
    | some x, some y, some z, some w => some (4096 * x + 256 * y + 16 * z + w, cs)
    | _, _, _, _ => none
  | _ => none

/-- Body of a JSON string literal, consumed after the opening quote up to and
including the closing quote: unescaped characters are taken as-is (a raw
control character is rejected, as `json.loads` does in strict mode),
two-character escapes and `\uXXXX` escapes are decoded, and a high surrogate
escape must be completed by a low surrogate escape (a lone surrogate, which
Python would keep as an unpaired code point, has no `Char` counterpart and is
rejected by the model).  The fuel argument decreases once per consumed escape
group; the callers pass the length of the remaining input, which always
suffices. -/
def parseStrBody : Nat → List Char → List Char → Option (String × List Char)
  | 0, _, _ => none
  | _ + 1, [], _ => none
  | fuel + 1, c :: cs, acc =>
    if c.toNat = 34 then some (String.mk acc, cs)
    else if c.toNat = 92 then
      match cs with
      | [] => none
      | e :: cs2 =>
        if e = 'u' then
          match parseHex4 cs2 with
          | none => none
          | some (n, cs3) =>
            if 55296 ≤ n ∧ n ≤ 56319 then
              match cs3 with
              | bs :: u2 :: cs3b =>
                if bs.toNat = 92 ∧ u2 = 'u' then
                  match parseHex4 cs3b with
                  | some (m, cs4) =>
                    if 56320 ≤ m ∧ m ≤ 57343 then
                      parseStrBody fuel cs4 (acc ++
                        [Char.ofNat (65536 + (n - 55296) * 1024 + (m - 56320))])
                    else none
                  | none => none
                else none
              | _ => none
            else if 56320 ≤ n ∧ n ≤ 57343 then none
            else parseStrBody fuel cs3 (acc ++ [Char.ofNat n])
        else
          match escDecode e with
          | some c2 => parseStrBody fuel cs2 (acc ++ [c2])
          | none => none
    else if c.toNat < 32 then none
    else parseStrBody fuel cs (acc ++ [c])

/-- Decimal digit run of a JSON number (at least one digit). -/
def parseDigits : List Char → Nat → Bool → Option (Nat × List Char)
  | [], acc, seen => if seen then some (acc, []) else none
  | c :: cs, acc, seen =>
    if 48 ≤ c.toNat ∧ c.toNat ≤ 57 then
      parseDigits cs (10 * acc + (c.toNat - 48)) true
    else if seen then some (acc, c :: cs)
    else none

/-- Integer JSON numbers (the only numeric form the model decodes; the
server itself never emits any other). -/
def parseIntFrom (cs : List Char) : Option (JValue × List Char) :=
  match cs with
  | c :: cs2 =>
    if c.toNat = 45 then
      match parseDigits cs2 0 false with
      | some (m, r) => some (JValue.jnum (-(m : Int)), r)
      | none => none
    else
      match parseDigits cs 0 false with
      | some (m, r) => some (JValue.jnum (m : Int), r)
      | none => none
  | [] => none

/-- Python-dict construction from the parsed member list of a JSON object:
members are inserted in order, so a repeated key keeps its first position
and its last value. -/
def pyDict (kvs : List (String × JValue)) : List (String × JValue) :=
  kvs.foldl (fun acc kv => updA acc kv.1 kv.2) []

/-- Items of a non-empty JSON array, with the trailing `]` consumed.  `pv`
is the value parser for the nesting level below; the fuel bounds the number
of items and the callers pass the remaining input length. -/
def parseListAux (pv : List Char → Option (JValue × List Char)) :
    Nat → List Char → Option (List JValue × List Char)
  | 0, _ => none
  | m + 1, cs =>
    match pv cs with
    | none => none
    | some (v, r) =>
      match skipWs r with
      | c :: r2 =>
        if c.toNat = 44 then
          match parseListAux pv m r2 with
          | some (vs, r3) => some (v :: vs, r3)
          | none => none
        else if c.toNat = 93 then some ([v], r2)
        else none
      | [] => none

/-- Members of a non-empty JSON object, with the trailing brace consumed. -/
def parseMembersAux (pv : List Char → Option (JValue × List Char)) :
    Nat → List Char → Option (List (String × JValue) × List Char)
  | 0, _ => none
  | m + 1, cs =>
    match skipWs cs with
    | c :: r =>
      if c.toNat = 34 then
        match parseStrBody r.length r [] with
        | some (k, r2) =>
          match skipWs r2 with
          | c2 :: r3 =>
            if c2.toNat = 58 then
              match pv r3 with
              | some (v, r4) =>
                match skipWs r4 with
                | c3 :: r5 =>
                  if c3.toNat = 44 then
                    match parseMembersAux pv m r5 with
                    | some (kvs, r6) => some ((k, v) :: kvs, r6)
                    | none => none
                  else if c3.toNat = 125 then some ([(k, v)], r5)
                  else none
                | [] => none
              | none => none
            else none
          | [] => none
        | none => none
      else none
    | [] => none

/-- Recursive-descent JSON value parser modelling `json.loads`.  The fuel
bounds the nesting depth only (each recursive call strictly decreases it);
the top-level entry point supplies more fuel than any input can need. -/
def parseVal : Nat → List Char → Option (JValue × List Char)
  | 0, _ => none
  | n + 1, cs =>
    match skipWs cs with
    | 'n' :: 'u' :: 'l' :: 'l' :: r => some (.jnull, r)
    | 't' :: 'r' :: 'u' :: 'e' :: r => some (.jbool true, r)
    | 'f' :: 'a' :: 'l' :: 's' :: 'e' :: r => some (.jbool false, r)
    | c :: r =>
      if c.toNat = 34 then
        match parseStrBody r.length r [] with
        | some (s, r2) => some (.jstr s, r2)
        | none => none
      else if c.toNat = 91 then
        match skipWs r with
        | c2 :: r2 =>
          if c2.toNat = 93 then some (.jarr [], r2)
          else
            match parseListAux (parseVal n) (c2 :: r2).length (c2 :: r2) with
            | some (vs, r3) => some (.jarr vs, r3)
            | none => none
        | [] => none
      else if c.toNat = 123 then
        match skipWs r with
        | c2 :: r2 =>
          if c2.toNat = 125 then some (.jobj [], r2)
          else
            match parseMembersAux (parseVal n) (c2 :: r2).length (c2 :: r2) with
            | some (kvs, r3) => some (.jobj (pyDict kvs), r3)
            | none => none
        | [] => none
      else if c.toNat = 45 || (48 ≤ c.toNat && c.toNat ≤ 57) then
        parseIntFrom (c :: r)
      else none
    | [] => none

/-- `json.loads`: parse one value surrounded by optional whitespace; any
trailing non-whitespace is an error. -/
def loads (s : String) : Option JValue :=
  match parseVal (s.length + 1) s.data with
  | some (v, r) =>
    match skipWs r with
    | [] => some v
    | _ => none
  | none => none

/-- Valid two-lists request `[["E1"], ["F1"]]`. -/
def reqEF : JValue :=
  JValue.jarr [JValue.jarr [JValue.jstr "E1"], JValue.jarr [JValue.jstr "F1"]]

/-- Request `[["E1"], "F1"]`, whose `fields` value is a non-empty string
rather than a list of strings. -/
def reqBadFields : JValue :=
  JValue.jarr [JValue.jarr [JValue.jstr "E1"], JValue.jstr "F1"]

/-- Mapping request with both required keys plus an additional key. -/
def reqExtra : JValue :=
  JValue.jobj [("securities", JValue.jarr [JValue.jstr "E1"]),
    ("fields", JValue.jarr [JValue.jstr "F1"]), ("extra", JValue.jnum 1)]

/-- A stub resolver that returns an empty mapping. -/
def stubResolver : ResolverFun := fun _ _ => some (JValue.jobj [])

/-- A backend whose `session.start()` fails. -/
def bStartFail : Backend := ⟨false, true, []⟩

/-- A backend whose `openService("//blp/refdata")` fails. -/
def bOpenFail : Backend := ⟨true, false, []⟩

/-- A valid scalar field entry. -/
def fentry (f v : String) : FieldEntry := ⟨f, true, false, [], v⟩

/-- A field entry the backend marks invalid. -/
def badEntry (f v : String) : FieldEntry := ⟨f, false, false, [], v⟩

/-- A one-message, one-security page. -/
def onePage (t : EType) (e : String) (fes : List FieldEntry) : Page :=
  ⟨t, [⟨[⟨e, fes⟩]⟩]⟩

/-- Entity `A`: field `X` on a partial page, field `Y` on the final page. -/
def evsAXY : List Page :=
  [onePage EType.partResponse "A" [fentry "X" "x1"],
   onePage EType.fullResponse "A" [fentry "Y" "y1"]]

/-- Entity `A`: field `X` delivered on both pages with different values. -/
def evsAXX : List Page :=
  [onePage EType.partResponse "A" [fentry "X" "1"],
   onePage EType.fullResponse "A" [fentry "X" "2"]]

/-- Entity `E1` with a valid `F1` and an invalid `F2` on the final page. -/
def evsE1 : List Page :=
  [onePage EType.fullResponse "E1" [fentry "F1" "v1", badEntry "F2" "v2"]]

/-- A healthy backend delivering one terminal page. -/
def bGood : Backend := ⟨true, true, evsE1⟩

/-- A concrete aggregated result used to witness the round-trip. -/
def rcSample : Agg :=
  [("E1", [("F1", Value.vstr "v1"), ("F2", Value.varr ["a", "b"])]),
   ("E2", [("F1", Value.vstr "v2")])]


theorem lookupA_updA_self {α : Type} (l : List (String × α)) (k : String) (v : α) :
    lookupA (updA l k v) k = some v := by
  induction l with
  | nil => simp [updA, lookupA]
  | cons p t ih =>
    by_cases h : p.1 = k
    · simp [updA, h, lookupA]
    · simp [updA, h, lookupA, ih]

theorem lookupA_updA_ne {α : Type} (l : List (String × α)) {k k' : String} (v : α)
    (h : k' ≠ k) : lookupA (updA l k v) k' = lookupA l k' := by
  induction l with
  | nil => simp [updA, lookupA, Ne.symm h]
  | cons p t ih =>
    by_cases hp : p.1 = k
    · simp [updA, hp, lookupA, Ne.symm h]
    · by_cases hk : p.1 = k'
      · simp [updA, hp, lookupA, hk, h]
      · simp [updA, hp, lookupA, hk, ih]

theorem lf_append (r : Agg) (k e f : String) :
    lookupField (r ++ [(k, [])]) e f = lookupField r e f := by
  induction r with
  | nil => by_cases h : k = e <;> simp [lookupField, lookupA, h]
  | cons p t ih =>
    by_cases h : p.1 = e
    · simp [lookupField, lookupA, h]
    · simpa [lookupField, lookupA, h] using ih

theorem foldl_track {σ α β : Type} (get : σ → β) (step : σ → α → σ) (g : β → α → β)
    (h : ∀ s a, get (step s a) = g (get s) a) :
    ∀ (l : List α) (s : σ), get (l.foldl step s) = l.foldl g (get s) := by
  intro l
  induction l with
  | nil => intro s; rfl
  | cons a t ih => intro s; rw [List.foldl_cons, List.foldl_cons, ih, h]

theorem lookupField_updA (r : Agg) (sec : String) (M : FieldMap) (e f : String) :
    lookupField (updA r sec M) e f =
      if sec = e then lookupA M f else lookupField r e f := by
  unfold lookupField
  by_cases h : sec = e
  · subst h
    rw [lookupA_updA_self]
    simp
  · rw [lookupA_updA_ne _ _ (Ne.symm h)]
    simp [h]

theorem lf_processField (r : Agg) (s : String) (fe : FieldEntry) (e f : String) :
    lookupField (processField r s fe) e f = fStep s e f (lookupField r e f) fe := by
  cases hv : fe.valid with
  | false => simp [processField, fStep, hv]
  | true =>
    have hpf : processField r s fe =
        updA r s (updA ((lookupA r s).getD []) fe.fname
          (if fe.isArr then Value.varr fe.arrValues else Value.vstr fe.strValue)) := by
      simp [processField, hv]
    rw [hpf, lookupField_updA]
    by_cases hs : s = e
    · subst hs
      rw [if_pos rfl]
      by_cases hf : fe.fname = f
      · subst hf
        rw [lookupA_updA_self]
        simp [fStep, hv, feVal]
      · rw [lookupA_updA_ne _ _ (Ne.symm hf)]
        have hfs : fStep s s f (lookupField r s f) fe = lookupField r s f := by
          simp [fStep, hf]
        rw [hfs]
        cases hls : lookupA r s with
        | none => simp [lookupField, hls, lookupA]
        | some m => simp [lookupField, hls]
    · rw [if_neg hs]
      simp [fStep, hs]

theorem lf_processSec (r : Agg) (sd : SecData) (e f : String) :
    lookupField (processSec r sd) e f = sdStep e f (lookupField r e f) sd := by
  unfold processSec sdStep
  rw [foldl_track (fun r => lookupField r e f)
    (fun r fe => processField r sd.security fe) (fStep sd.security e f)
    (fun r fe => lf_processField r sd.security fe e f)]
  by_cases hk : hasKeyA r sd.security
  · simp [hk]
  · simp [hk, lf_append]

theorem lf_processMsg (r : Agg) (m : Msg) (e f : String) :
    lookupField (processMsg r m) e f = mStep e f (lookupField r e f) m := by
  unfold processMsg mStep
  exact foldl_track (fun r => lookupField r e f) processSec (sdStep e f)
    (fun r sd => lf_processSec r sd e f) m.securityData r

theorem lf_processPage (r : Agg) (p : Page) (e f : String) :
    lookupField (processPage r p) e f = pStep e f (lookupField r e f) p := by
  unfold processPage pStep
  exact foldl_track (fun r => lookupField r e f) processMsg (mStep e f)
    (fun r m => lf_processMsg r m e f) p.msgs r

theorem lf_runEvents (evs : List Page) (acc r : Agg) (e f : String)
    (h : runEvents evs acc = some r) :
    lookupField r e f = (consumed evs).foldl (pStep e f) (lookupField acc e f) := by
  induction evs generalizing acc with
  | nil => simp [runEvents] at h
  | cons p ps ih =>
    unfold runEvents at h
    unfold consumed
    cases hp : p.etype with
    | otherEvt => rw [hp] at h; exact ih acc h
    | partResponse =>
      rw [hp] at h
      rw [List.foldl_cons, ← lf_processPage]
      exact ih _ h
    | fullResponse =>
      rw [hp] at h
      cases h
      rw [List.foldl_cons, List.foldl_nil, ← lf_processPage]

theorem override_fold {α : Type} (g : Option Value → α → Option Value)
    (hg : ∀ o a, g o a = orD (g none a) o) :
    ∀ (l : List α) (o : Option Value), l.foldl g o = orD (l.foldl g none) o := by
  intro l
  induction l with
  | nil => intro o; cases o <;> rfl
  | cons a t ih =>
    intro o
    simp only [List.foldl_cons]
    rw [ih (g o a), ih (g none a)]
    cases h : t.foldl g none with
    | some v => rfl
    | none => simp only [orD]; exact hg o a

theorem orD_isSome {α : Type} (x y : Option α) :
    (orD x y).isSome = (x.isSome || y.isSome) := by
  cases x <;> rfl

theorem override_isSome {α : Type} (g : Option Value → α → Option Value)
    (hg : ∀ o a, g o a = orD (g none a) o) :
    ∀ (l : List α) (o : Option Value),
      (l.foldl g o).isSome = (o.isSome || l.any fun a => (g none a).isSome) := by
  intro l
  induction l with
  | nil => intro o; simp
  | cons a t ih =>
    intro o
    rw [List.foldl_cons, ih (g o a), hg o a, List.any_cons, orD_isSome]
    cases (g none a).isSome <;> cases o.isSome <;> simp

theorem fStep_ov (s e f : String) (o : Option Value) (fe : FieldEntry) :
    fStep s e f o fe = orD (fStep s e f none fe) o := by
  unfold fStep
  by_cases h : s = e ∧ fe.fname = f ∧ fe.valid = true <;> simp [h, orD]

theorem sdStep_ov (e f : String) (o : Option Value) (sd : SecData) :
    sdStep e f o sd = orD (sdStep e f none sd) o :=
  override_fold (fStep sd.security e f) (fStep_ov sd.security e f) sd.fieldData o

theorem mStep_ov (e f : String) (o : Option Value) (m : Msg) :
    mStep e f o m = orD (mStep e f none m) o :=
  override_fold (sdStep e f) (sdStep_ov e f) m.securityData o

theorem pStep_ov (e f : String) (o : Option Value) (p : Page) :
    pStep e f o p = orD (pStep e f none p) o :=
  override_fold (mStep e f) (mStep_ov e f) p.msgs o

theorem fStep_isSome (s e f : String) (fe : FieldEntry) :
    (fStep s e f none fe).isSome = decide (s = e ∧ fe.fname = f ∧ fe.valid = true) := by
  unfold fStep
  by_cases h : s = e ∧ fe.fname = f ∧ fe.valid = true <;> simp [h]

theorem sdStep_isSome (e f : String) (sd : SecData) :
    (sdStep e f none sd).isSome =
      sd.fieldData.any (fun fe =>
        decide (sd.security = e ∧ fe.fname = f ∧ fe.valid = true)) := by
  unfold sdStep
  rw [override_isSome (fStep sd.security e f) (fStep_ov sd.security e f)]
  simp [fStep_isSome]

theorem mStep_isSome (e f : String) (m : Msg) :
    (mStep e f none m).isSome =
      m.securityData.any (fun sd => sd.fieldData.any (fun fe =>
        decide (sd.security = e ∧ fe.fname = f ∧ fe.valid = true))) := by
  unfold mStep
  rw [override_isSome (sdStep e f) (sdStep_ov e f)]
  simp [sdStep_isSome]

theorem pStep_isSome (e f : String) (p : Page) :
    (pStep e f none p).isSome = delivers p e f := by
  unfold pStep delivers
  rw [override_isSome (mStep e f) (mStep_ov e f)]
  simp [mStep_isSome]

theorem lastOf_isSome (evs : List Page) (e f : String) :
    (lastOf evs e f).isSome = (consumed evs).any (fun p => delivers p e f) := by
  unfold lastOf
  rw [override_isSome (pStep e f) (pStep_ov e f)]
  simp [pStep_isSome]

theorem agg_char (evs : List Page) (acc r : Agg) (e f : String)
    (h : runEvents evs acc = some r) :
    lookupField r e f = orD (lastOf evs e f) (lookupField acc e f) := by
  rw [lf_runEvents evs acc r e f h]
  exact override_fold (pStep e f) (pStep_ov e f) (consumed evs) _

theorem hasField_eq (r : Agg) (e f : String) :
    hasField r e f = (lookupField r e f).isSome := by
  unfold hasField lookupField hasKeyA
  cases h : lookupA r e <;> simp [h]

/-- Claim C1: the claim says a request with an accepted top-level shape whose
entities or fields value is not a list of strings aborts without reply bytes.
The code violates this: for `[["E1"], "F1"]` the caught `AssertionError`
leaves the truthy values in place, `resolve` is invoked with the non-list
`"F1"`, and a reply is written for every resolver return value. -/
theorem c1_bad_type_request_gets_reply :
    extractPair reqBadFields = some (JValue.jarr [JValue.jstr "E1"], JValue.jstr "F1") ∧
    isStrList (JValue.jstr "F1") = false ∧
    ∀ rv : JValue, handle (fun _ _ => some rv) reqBadFields =
      ⟨some (JValue.jarr [JValue.jstr "E1"], JValue.jstr "F1"), some (dumps rv)⟩ :=
  ⟨rfl, rfl, fun _ => rfl⟩

/-- Claim C2: the claim says a backend that cannot be reached or opened makes
the exchange abort with no reply bytes.  The code violates this: `resolve`
returns `None` after the failed `session.start()` / `openService`, and the
handler serializes it, writing the four bytes `null` to the client. -/
theorem c2_backend_failure_writes_null_reply :
    (handleB bStartFail reqEF).replyBytes = some "null" ∧
    (handleB bOpenFail reqEF).replyBytes = some "null" := by
  constructor <;> rfl

/-- Claim C3, counterexample: a mapping carrying both required keys plus the
additional key `extra` is *not* rejected — the resolver is invoked and a
reply is written, so acceptance is not restricted to the exact key set. -/
theorem c3_extra_key_counterexample :
    (handle stubResolver reqExtra).resolverCall =
      some (JValue.jarr [JValue.jstr "E1"], JValue.jarr [JValue.jstr "F1"]) ∧
    (handle stubResolver reqExtra).replyBytes = some (dumps (JValue.jobj [])) :=
  ⟨rfl, rfl⟩

/-- Claim C3, amended: a mapping request is accepted whenever lookups of both
`securities` and `fields` succeed and yield truthy values — any additional
keys are ignored rather than causing a failure; (only) a missing key aborts
the exchange. -/
theorem c3_amended_extra_keys_ignored (resolver : ResolverFun)
    (kvs : List (String × JValue)) (s f : JValue)
    (h1 : objLookup kvs "securities" = some s)
    (h2 : objLookup kvs "fields" = some f)
    (h3 : pyFalsy s = false) (h4 : pyFalsy f = false) :
    handle resolver (JValue.jobj kvs) = ⟨some (s, f), (resolver s f).map dumps⟩ := by
  have hx : extractPair (JValue.jobj kvs) = some (s, f) := by
    simp only [extractPair]
    rw [h1, h2]
  unfold handle
  rw [hx]
  simp only [h3, h4, Bool.or_self]
  cases hr : resolver s f <;> simp [hr]

/-- Witness for the amended C3 at the concrete extra-key request. -/
theorem c3_amended_witness :
    handle stubResolver reqExtra =
      ⟨some (JValue.jarr [JValue.jstr "E1"], JValue.jarr [JValue.jstr "F1"]),
       some (dumps (JValue.jobj []))⟩ :=
  c3_amended_extra_keys_ignored stubResolver _ _ _ rfl rfl rfl rfl

/-- Claim C4, counterexample: when `session.start()` succeeds but opening
`//blp/refdata` fails, `resolve` returns with the session started and never
stopped — the release is not performed on this exit path. -/
theorem c4_session_leak_counterexample :
    (resolveModel bOpenFail ["E1"] ["F1"]).started = true ∧
    (resolveModel bOpenFail ["E1"] ["F1"]).stopped = false :=
  ⟨rfl, rfl⟩

/-- Claim C4, amended: the session is released on every path that enters the
event loop and reaches a terminal page (the `try`/`finally`); the early
failure returns do not stop the session. -/
theorem c4_amended_stop_after_terminal (b : Backend) (ss fs : List String)
    (r : Agg) (h1 : b.startOk = true) (h2 : b.openOk = true)
    (h3 : runEvents b.events [] = some r) :
    (resolveModel b ss fs).started = true ∧ (resolveModel b ss fs).stopped = true := by
  unfold resolveModel
  rw [h1, h2, h3]
  exact ⟨rfl, rfl⟩

/-- Witness for the amended C4 at a healthy backend. -/
theorem c4_amended_witness :
    (resolveModel bGood ["E1"] ["F1"]).started = true ∧
    (resolveModel bGood ["E1"] ["F1"]).stopped = true :=
  c4_amended_stop_after_terminal bGood ["E1"] ["F1"]
    [("E1", [("F1", Value.vstr "v1")])] rfl rfl rfl

/-- Claim C5: a two-element-sequence request and the two-key-mapping request
carrying the same entity and field lists produce the same exchange outcome —
the same resolver invocation and identical reply bytes — for every resolver
behaviour. -/
theorem c5_shape_equivalence (resolver : ResolverFun) (es fs : List String) :
    handle resolver (JValue.jarr [JValue.jarr (es.map JValue.jstr),
        JValue.jarr (fs.map JValue.jstr)]) =
      handle resolver (JValue.jobj [("securities", JValue.jarr (es.map JValue.jstr)),
        ("fields", JValue.jarr (fs.map JValue.jstr))]) :=
  rfl

/-- Claim C8: a request whose extracted entities and fields are lists of
strings with at least one of them empty makes the handler return before
calling the resolver and before writing anything. -/
theorem c8_empty_list_aborts (resolver : ResolverFun) (req : JValue)
    (S F : List JValue)
    (hx : extractPair req = some (JValue.jarr S, JValue.jarr F))
    (hS : isStrList (JValue.jarr S) = true)
    (hF : isStrList (JValue.jarr F) = true)
    (he : S = [] ∨ F = []) :
    handle resolver req = ⟨none, none⟩ := by
  unfold handle
  rw [hx]
  rcases he with h | h <;> subst h <;> simp [pyFalsy]

/-- Witness for C8 at the request `[[], ["F1"]]` of the spec's scenario 4. -/
theorem c8_witness :
    handle stubResolver (JValue.jarr [JValue.jarr [], JValue.jarr [JValue.jstr "F1"]]) =
      ⟨none, none⟩ :=
  c8_empty_list_aborts stubResolver _ [] [JValue.jstr "F1"] rfl rfl rfl (Or.inl rfl)

/-- Claim C6: the aggregated result is the per-entity field-level union of
the merged pages — every field present in the accumulator or validly
delivered by a consumed page is present in the final result, so later pages
add to an entity's mapping instead of replacing it. -/
theorem c6_page_aggregation_union (evs : List Page) (acc r : Agg) (e f : String)
    (h : runEvents evs acc = some r)
    (hd : hasField acc e f = true ∨
      (consumed evs).any (fun p => delivers p e f) = true) :
    hasField r e f = true := by
  rw [hasField_eq, agg_char evs acc r e f h, orD_isSome, lastOf_isSome, ← hasField_eq]
  rcases hd with h1 | h1 <;> simp [h1]

/-- Witness for C6: entity `A` gets field `X` on a partial page and field
`Y` on the terminal page, and the final result holds both. -/
theorem c6_witness :
    hasField ((runEvents evsAXY []).getD []) "A" "X" = true ∧
    hasField ((runEvents evsAXY []).getD []) "A" "Y" = true := by
  have h : runEvents evsAXY [] =
      some [("A", [("X", Value.vstr "x1"), ("Y", Value.vstr "y1")])] := rfl
  rw [h]
  exact ⟨c6_page_aggregation_union evsAXY [] _ "A" "X" h (Or.inr rfl),
         c6_page_aggregation_union evsAXY [] _ "A" "Y" h (Or.inr rfl)⟩

/-- Claim C9: a field that no consumed page validly delivers for an entity
(in particular one the backend marks invalid) is absent from that entity's
mapping in the final result. -/
theorem c9_invalid_fields_omitted (evs : List Page) (acc r : Agg) (e f : String)
    (h : runEvents evs acc = some r)
    (hno : (consumed evs).any (fun p => delivers p e f) = false)
    (hacc : hasField acc e f = false) :
    hasField r e f = false := by
  rw [hasField_eq, agg_char evs acc r e f h, orD_isSome, lastOf_isSome,
    ← hasField_eq, hno, hacc]
  rfl

/-- Witness for C9 at the spec's scenario 2: `F2` is delivered only as an
invalid entry for `E1`, and the final result has no `F2` entry. -/
theorem c9_witness :
    hasField ((runEvents evsE1 []).getD []) "E1" "F2" = false := by
  have h : runEvents evsE1 [] = some [("E1", [("F1", Value.vstr "v1")])] := rfl
  rw [h]
  exact c9_invalid_fields_omitted evsE1 [] _ "E1" "F2" h rfl rfl

/-- Claim C10: the final value of every (entity, field) pair is the last
valid value delivered for it across the consumed pages — a repeated pair is
overwritten by the later page, while pairs never delivered keep the
accumulator's value. -/
theorem c10_last_write_wins (evs : List Page) (acc r : Agg) (e f : String)
    (h : runEvents evs acc = some r) :
    lookupField r e f = orD (lastOf evs e f) (lookupField acc e f) :=
  agg_char evs acc r e f h

/-- Witness for C10: field `X` of entity `A` is delivered with value `1` on
a partial page and `2` on the terminal page; the final value is `2`. -/
theorem c10_witness :
    lookupField ((runEvents evsAXX []).getD []) "A" "X" = some (Value.vstr "2") := by
  have h : runEvents evsAXX [] = some [("A", [("X", Value.vstr "2")])] := rfl
  rw [h]
  exact (c10_last_write_wins evsAXX [] _ "A" "X" h).trans rfl

theorem toNat_ofNat_valid (n : Nat) (h : n.isValidChar) : (Char.ofNat n).toNat = n := by
  unfold Char.ofNat
  rw [dif_pos h]
  rfl

theorem char_toNat_inj {c d : Char} (h : c.toNat = d.toNat) : c = d := by
  have h2 := congrArg Char.ofNat h
  rwa [Char.ofNat_toNat, Char.ofNat_toNat] at h2

theorem hexRound : ∀ d, d < 16 → hexVal (hexDig d) = some d := by decide

theorem hex4_digits (n : Nat) (cs : List Char) (hn : n < 65536) :
    parseHex4 (hexDig (n / 4096 % 16) :: hexDig (n / 256 % 16) ::
      hexDig (n / 16 % 16) :: hexDig (n % 16) :: cs) = some (n, cs) := by
  have e1 := hexRound (n / 4096 % 16) (Nat.mod_lt _ (by norm_num))
  have e2 := hexRound (n / 256 % 16) (Nat.mod_lt _ (by norm_num))
  have e3 := hexRound (n / 16 % 16) (Nat.mod_lt _ (by norm_num))
  have e4 := hexRound (n % 16) (Nat.mod_lt _ (by norm_num))
  simp only [parseHex4, e1, e2, e3, e4, Option.some.injEq, Prod.mk.injEq, and_true]
  omega

theorem psb_u (fuel : Nat) (cs2 acc : List Char) :
    parseStrBody (fuel + 1) ('\\' :: 'u' :: cs2) acc =
      match parseHex4 cs2 with
      | none => none
      | some (n, cs3) =>
        if 55296 ≤ n ∧ n ≤ 56319 then
          match cs3 with
          | bs :: u2 :: cs3b =>
            if bs.toNat = 92 ∧ u2 = 'u' then
              match parseHex4 cs3b with
              | some (m, cs4) =>
                if 56320 ≤ m ∧ m ≤ 57343 then
                  parseStrBody fuel cs4 (acc ++
                    [Char.ofNat (65536 + (n - 55296) * 1024 + (m - 56320))])
                else none
              | none => none
            else none
          | _ => none
        else if 56320 ≤ n ∧ n ≤ 57343 then none
        else parseStrBody fuel cs3 (acc ++ [Char.ofNat n]) := rfl

theorem psb_uEsc (fuel n : Nat) (hn : n < 65536)
    (hlo : ¬ (55296 ≤ n ∧ n ≤ 56319)) (hhi : ¬ (56320 ≤ n ∧ n ≤ 57343))
    (cs acc : List Char) :
    parseStrBody (fuel + 1) (uEsc n ++ cs) acc
      = parseStrBody fuel cs (acc ++ [Char.ofNat n]) := by
  have h0 : uEsc n ++ cs = '\\' :: 'u' :: (hexDig (n / 4096 % 16) :: hexDig (n / 256 % 16) ::
      hexDig (n / 16 % 16) :: hexDig (n % 16) :: cs) := rfl
  rw [h0, psb_u, hex4_digits n cs hn]
  split
  · next h => exact absurd h (by simp)
  · next n' cs3 h =>
    simp only [Option.some.injEq, Prod.mk.injEq] at h
    obtain ⟨rfl, rfl⟩ := h.symm
    rw [if_neg hlo, if_neg hhi]

theorem psb_pair (fuel n : Nat) (h1 : 65536 ≤ n) (h2 : n < 1114112)
    (cs acc : List Char) :
    parseStrBody (fuel + 1)
      (uEsc (55296 + (n - 65536) / 1024) ++ (uEsc (56320 + (n - 65536) % 1024) ++ cs)) acc
      = parseStrBody fuel cs (acc ++ [Char.ofNat n]) := by
  have hhi : 55296 + (n - 65536) / 1024 < 65536 := by omega
  have hlo : 56320 + (n - 65536) % 1024 < 65536 := by omega
  have h0 : uEsc (55296 + (n - 65536) / 1024) ++ (uEsc (56320 + (n - 65536) % 1024) ++ cs) =
      '\\' :: 'u' :: (hexDig ((55296 + (n - 65536) / 1024) / 4096 % 16) ::
        hexDig ((55296 + (n - 65536) / 1024) / 256 % 16) ::
        hexDig ((55296 + (n - 65536) / 1024) / 16 % 16) ::
        hexDig ((55296 + (n - 65536) / 1024) % 16) ::
        (uEsc (56320 + (n - 65536) % 1024) ++ cs)) := rfl
  rw [h0, psb_u, hex4_digits _ _ hhi]
  split
  · next h => exact absurd h (by simp)
  · next n2 cs3 h =>
    simp only [Option.some.injEq, Prod.mk.injEq] at h
    obtain ⟨rfl, rfl⟩ := h.symm
    rw [if_pos (by omega)]
    have h1b : uEsc (56320 + (n - 65536) % 1024) ++ cs =
        '\\' :: 'u' :: (hexDig ((56320 + (n - 65536) % 1024) / 4096 % 16) ::
          hexDig ((56320 + (n - 65536) % 1024) / 256 % 16) ::
          hexDig ((56320 + (n - 65536) % 1024) / 16 % 16) ::
          hexDig ((56320 + (n - 65536) % 1024) % 16) :: cs) := rfl
    rw [h1b]
    split
    · next bs u2 cs3b heq =>
      injection heq with e1 r1
      injection r1 with e2 r2
      subst e1
      subst e2
      subst r2
      rw [if_pos ⟨by decide, rfl⟩]
      rw [hex4_digits _ _ hlo]
      split
      · next m cs4 hm =>
        simp only [Option.some.injEq, Prod.mk.injEq] at hm
        obtain ⟨rfl, rfl⟩ := hm.symm
        rw [if_pos (by omega)]
        have harith : 65536 + (55296 + (n - 65536) / 1024 - 55296) * 1024 +
            (56320 + (n - 65536) % 1024 - 56320) = n := by omega
        rw [harith]
      · next hm => exact absurd hm (by simp)
    · next h2 => exact (h2 _ _ _ rfl).elim

theorem psb_plain (fuel : Nat) (c : Char) (cs acc : List Char)
    (h1 : ¬ c.toNat = 34) (h2 : ¬ c.toNat = 92) (h3 : ¬ c.toNat < 32) :
    parseStrBody (fuel + 1) (c :: cs) acc = parseStrBody fuel cs (acc ++ [c]) := by
  simp only [parseStrBody]
  rw [if_neg h1, if_neg h2, if_neg h3]

theorem parse_escChar (fuel : Nat) (c : Char) (rest acc : List Char) :
    parseStrBody (fuel + 1) (escChar c ++ rest) acc = parseStrBody fuel rest (acc ++ [c]) := by
  have hval : c.toNat < 55296 ∨ (57343 < c.toNat ∧ c.toNat < 1114112) := c.valid
  by_cases h34 : c.toNat = 34
  · rw [char_toNat_inj (h34.trans (by decide : (34 : Nat) = ('"' : Char).toNat))]
    rfl
  · by_cases h92 : c.toNat = 92
    · rw [char_toNat_inj (h92.trans (by decide : (92 : Nat) = ('\\' : Char).toNat))]
      rfl
    · by_cases h8 : c.toNat = 8
      · rw [char_toNat_inj (h8.trans (by decide : (8 : Nat) = (Char.ofNat 8).toNat))]
        rfl
      · by_cases h12 : c.toNat = 12
        · rw [char_toNat_inj (h12.trans (by decide : (12 : Nat) = (Char.ofNat 12).toNat))]
          rfl
        · by_cases h10 : c.toNat = 10
          · rw [char_toNat_inj (h10.trans (by decide : (10 : Nat) = (Char.ofNat 10).toNat))]
            rfl
          · by_cases h13 : c.toNat = 13
            · rw [char_toNat_inj (h13.trans (by decide : (13 : Nat) = (Char.ofNat 13).toNat))]
              rfl
            · by_cases h9 : c.toNat = 9
              · rw [char_toNat_inj (h9.trans (by decide : (9 : Nat) = (Char.ofNat 9).toNat))]
                rfl
              · by_cases hc32 : c.toNat < 32
                · have hesc : escChar c = uEsc c.toNat := by
                    simp [escChar, h34, h92, h8, h12, h10, h13, h9, hc32]
                  rw [hesc, psb_uEsc fuel c.toNat (by omega) (by omega) (by omega),
                    Char.ofNat_toNat]
                · by_cases hc127 : c.toNat < 127
                  · have hesc : escChar c = [c] := by
                      simp [escChar, h34, h92, h8, h12, h10, h13, h9, hc32, hc127]
                    rw [hesc]
                    exact psb_plain fuel c rest acc h34 h92 hc32
                  · by_cases hbmp : c.toNat < 65536
                    · have hesc : escChar c = uEsc c.toNat := by
                        simp [escChar, h34, h92, h8, h12, h10, h13, h9, hc32, hc127, hbmp]
                      rw [hesc, psb_uEsc fuel c.toNat hbmp (by omega) (by omega),
                        Char.ofNat_toNat]
                    · have hesc : escChar c = uEsc (55296 + (c.toNat - 65536) / 1024) ++
                          uEsc (56320 + (c.toNat - 65536) % 1024) := by
                        simp [escChar, h34, h92, h8, h12, h10, h13, h9, hc32, hc127, hbmp]
                      rw [hesc, List.append_assoc,
                        psb_pair fuel c.toNat (by omega) (by omega), Char.ofNat_toNat]

theorem parse_escList (l : List Char) (rest acc : List Char) (fuel : Nat) :
    parseStrBody (l.length + fuel) (l.foldr (fun c acc => escChar c ++ acc) [] ++ rest) acc
      = parseStrBody fuel rest (acc ++ l) := by
  induction l generalizing acc with
  | nil => simp
  | cons c t ih =>
    have hlen : (c :: t).length + fuel = (t.length + fuel) + 1 := by
      simp [List.length_cons]
      omega
    rw [hlen]
    have hsplit : (c :: t).foldr (fun c acc => escChar c ++ acc) [] ++ rest =
        escChar c ++ (t.foldr (fun c acc => escChar c ++ acc) [] ++ rest) := by
      simp [List.foldr_cons, List.append_assoc]
    rw [hsplit, parse_escChar, ih]
    simp [List.append_assoc]

set_option maxHeartbeats 2000000 in
theorem escChar_len_pos (c : Char) : 1 ≤ (escChar c).length := by
  unfold escChar
  split_ifs <;> simp [uEsc]

theorem escStr_len_ge (s : String) : s.data.length ≤ (escStr s).length := by
  unfold escStr
  induction s.data with
  | nil => simp
  | cons c t ih =>
    simp only [List.foldr_cons, List.length_append, List.length_cons]
    have := escChar_len_pos c
    omega

theorem parse_quoted (s : String) (rest : List Char) (fuel : Nat) :
    parseStrBody (s.data.length + (fuel + 1)) (escStr s ++ ('"' :: rest)) [] = some (s, rest) := by
  unfold escStr
  rw [parse_escList]
  show parseStrBody (fuel + 1) ('"' :: rest) s.data = some (s, rest)
  rfl

theorem parse_quoted_len (s : String) (rest : List Char) :
    parseStrBody (escStr s ++ ('"' :: rest)).length (escStr s ++ ('"' :: rest)) []
      = some (s, rest) := by
  have hge := escStr_len_ge s
  have hlen : (escStr s ++ ('"' :: rest)).length =
      s.data.length + (((escStr s).length - s.data.length + rest.length) + 1) := by
    simp only [List.length_append, List.length_cons]
    omega
  rw [hlen, parse_quoted]

theorem pv_quote (m : Nat) (X : List Char) :
    parseVal (m + 1) ('"' :: X) =
      match parseStrBody X.length X [] with
      | some (s, r2) => some (JValue.jstr s, r2)
      | none => none := rfl

theorem parse_jstr (m : Nat) (s : String) (rest : List Char) :
    parseVal (m + 1) (emitJ (JValue.jstr s) ++ rest) = some (JValue.jstr s, rest) := by
  have h0 : emitJ (JValue.jstr s) ++ rest = '"' :: (escStr s ++ ('"' :: rest)) := by
    simp [emitJ, quoteStr, List.append_assoc]
  rw [h0, pv_quote, parse_quoted_len]

theorem pla_step (pv : List Char → Option (JValue × List Char)) (m : Nat) (cs : List Char) :
    parseListAux pv (m + 1) cs =
      match pv cs with
      | none => none
      | some (v, r) =>
        match skipWs r with
        | c :: r2 =>
          if c.toNat = 44 then
            match parseListAux pv m r2 with
            | some (vs, r3) => some (v :: vs, r3)
            | none => none
          else if c.toNat = 93 then some ([v], r2)
          else none
        | [] => none := rfl

theorem pv_ws (m : Nat) (cs : List Char) :
    parseVal (m + 1) (' ' :: cs) = parseVal (m + 1) cs := rfl

theorem pla_ws (m f : Nat) (cs : List Char) :
    parseListAux (parseVal (m + 1)) (f + 1) (' ' :: cs)
      = parseListAux (parseVal (m + 1)) (f + 1) cs := rfl

theorem pma_ws (pv : List Char → Option (JValue × List Char)) (f : Nat) (cs : List Char) :
    parseMembersAux pv (f + 1) (' ' :: cs) = parseMembersAux pv (f + 1) cs := rfl

theorem parse_items_str (m : Nat) (xs : List String) (rest : List Char) (hxs : xs ≠ []) :
    ∀ j, parseListAux (parseVal (m + 1)) (xs.length + j)
      (emitItems (xs.map JValue.jstr) ++ (']' :: rest))
      = some (xs.map JValue.jstr, rest) := by
  induction xs with
  | nil => exact absurd rfl hxs
  | cons x ys ih =>
    intro j
    cases ys with
    | nil =>
      have hl : ([x].length + j) = j + 1 := by
        simp only [List.length_cons, List.length_nil]
        omega
      rw [hl]
      have he : emitItems ([x].map JValue.jstr) ++ (']' :: rest)
          = emitJ (JValue.jstr x) ++ (']' :: rest) := by
        simp [emitItems]
      rw [he, pla_step, parse_jstr]
      rfl
    | cons y t =>
      have hl : ((x :: y :: t).length + j) = ((y :: t).length + j) + 1 := by
        simp only [List.length_cons]
        omega
      rw [hl]
      have he : emitItems ((x :: y :: t).map JValue.jstr) ++ (']' :: rest)
          = emitJ (JValue.jstr x) ++ (',' :: ' ' ::
              (emitItems ((y :: t).map JValue.jstr) ++ (']' :: rest))) := by
        simp [emitItems, emitJ, List.append_assoc]
      rw [he, pla_step, parse_jstr]
      show (match parseListAux (parseVal (m + 1)) ((y :: t).length + j)
          (' ' :: (emitItems ((y :: t).map JValue.jstr) ++ (']' :: rest))) with
        | some (vs, r3) => some (JValue.jstr x :: vs, r3)
        | none => none) = _
      have hyt : (y :: t).length + j = ((t.length + j) + 1) := by
        simp only [List.length_cons]
        omega
      rw [hyt, pla_ws, ← hyt, ih (by simp) j]
      rfl

theorem quoteStr_len (s : String) : (quoteStr s).length = (escStr s).length + 2 := by
  simp [quoteStr]

theorem items_str_len (xs : List String) :
    xs.length ≤ (emitItems (xs.map JValue.jstr)).length := by
  induction xs with
  | nil => simp [emitItems]
  | cons x t ih =>
    cases t with
    | nil => simp [emitItems, emitJ, quoteStr_len]
    | cons y tt =>
      have h1 : emitItems ((x :: y :: tt).map JValue.jstr)
          = emitJ (JValue.jstr x) ++ (',' :: ' ' :: emitItems ((y :: tt).map JValue.jstr)) := by
        simp [emitItems]
      rw [h1]
      simp only [List.length_append, List.length_cons, emitJ, quoteStr_len] at *
      omega

theorem pv_arr_str (m : Nat) (W : List Char) :
    parseVal (m + 1) ('[' :: '"' :: W) =
      match parseListAux (parseVal m) ('"' :: W).length ('"' :: W) with
      | some (vs, r3) => some (JValue.jarr vs, r3)
      | none => none := rfl

theorem parse_jarr_str (m : Nat) (xs : List String) (rest : List Char) :
    parseVal (m + 2) (emitJ (JValue.jarr (xs.map JValue.jstr)) ++ rest)
      = some (JValue.jarr (xs.map JValue.jstr), rest) := by
  cases xs with
  | nil => rfl
  | cons x t =>
    have hx : emitJ (JValue.jarr ((x :: t).map JValue.jstr)) ++ rest
        = '[' :: (emitItems ((x :: t).map JValue.jstr) ++ (']' :: rest)) := by
      simp [emitJ, List.append_assoc]
    obtain ⟨Z, hZ⟩ : ∃ Z, emitItems ((x :: t).map JValue.jstr) ++ (']' :: rest)
        = '"' :: Z := by
      cases t with
      | nil =>
        exact ⟨escStr x ++ ('"' :: ']' :: rest),
          by simp [emitItems, emitJ, quoteStr, List.append_assoc]⟩
      | cons y tt =>
        exact ⟨escStr x ++ ('"' :: ',' :: ' ' ::
            (emitItems ((y :: tt).map JValue.jstr) ++ (']' :: rest))),
          by simp [emitItems, emitJ, quoteStr, List.append_assoc]⟩
    rw [hx, hZ, pv_arr_str (m + 1) Z]
    have hbound : (x :: t).length ≤ ('"' :: Z).length := by
      have h2 := congrArg List.length hZ
      simp only [List.length_append, List.length_cons] at h2
      have h3 := items_str_len (x :: t)
      simp only [List.length_cons] at *
      omega
    have hfuel : ('"' :: Z).length = (x :: t).length +
        (('"' :: Z).length - (x :: t).length) := by omega
    rw [hfuel, ← hZ, parse_items_str m (x :: t) rest (by simp)]

theorem parse_valueToJ (m : Nat) (v : Value) (rest : List Char) :
    parseVal (m + 2) (emitJ (valueToJ v) ++ rest) = some (valueToJ v, rest) := by
  cases v with
  | vstr s => exact parse_jstr (m + 1) s rest
  | varr xs => exact parse_jarr_str m xs rest

theorem pma_step (pv : List Char → Option (JValue × List Char)) (m : Nat) (W : List Char) :
    parseMembersAux pv (m + 1) ('"' :: W) =
      match parseStrBody W.length W [] with
      | some (k, r2) =>
        match skipWs r2 with
        | c2 :: r3 =>
          if c2.toNat = 58 then
            match pv r3 with
            | some (v, r4) =>
              match skipWs r4 with
              | c3 :: r5 =>
                if c3.toNat = 44 then
                  match parseMembersAux pv m r5 with
                  | some (kvs, r6) => some ((k, v) :: kvs, r6)
                  | none => none
                else if c3.toNat = 125 then some ([(k, v)], r5)
                else none
              | [] => none
            | none => none
          else none
        | [] => none
      | none => none := rfl

theorem parse_members_val (m : Nat) (kvs : List (String × Value)) (rest : List Char)
    (h : kvs ≠ []) : ∀ j,
    parseMembersAux (parseVal (m + 2)) (kvs.length + j)
      (emitMembers (kvs.map (fun q => (q.1, valueToJ q.2))) ++ (rbrace :: rest))
      = some (kvs.map (fun q => (q.1, valueToJ q.2)), rest) := by
  induction kvs with
  | nil => exact absurd rfl h
  | cons kv t ih =>
    intro j
    cases t with
    | nil =>
      have hl : ([kv].length + j) = j + 1 := by
        simp only [List.length_cons, List.length_nil]
        omega
      have he : emitMembers ([kv].map (fun q => (q.1, valueToJ q.2))) ++ (rbrace :: rest)
          = '"' :: (escStr kv.1 ++ ('"' :: (':' :: ' ' ::
              (emitJ (valueToJ kv.2) ++ (rbrace :: rest))))) := by
        simp [emitMembers, quoteStr, List.append_assoc]
      rw [hl, he, pma_step, parse_quoted_len]
      show (match parseVal (m + 2) (' ' :: (emitJ (valueToJ kv.2) ++ (rbrace :: rest))) with
        | some (v, r4) =>
          (match skipWs r4 with
          | c3 :: r5 =>
            if c3.toNat = 44 then
              match parseMembersAux (parseVal (m + 2)) j r5 with
              | some (kvs, r6) => some ((kv.1, v) :: kvs, r6)
              | none => none
            else if c3.toNat = 125 then some ([(kv.1, v)], r5)
            else none
          | [] => none)
        | none => none) = _
      rw [pv_ws (m + 1), parse_valueToJ m kv.2]
      rfl
    | cons kv2 t2 =>
      have hl : ((kv :: kv2 :: t2).length + j) = ((kv2 :: t2).length + j) + 1 := by
        simp only [List.length_cons]
        omega
      have he : emitMembers ((kv :: kv2 :: t2).map (fun q => (q.1, valueToJ q.2)))
            ++ (rbrace :: rest)
          = '"' :: (escStr kv.1 ++ ('"' :: (':' :: ' ' ::
              (emitJ (valueToJ kv.2) ++ (',' :: ' ' ::
                (emitMembers ((kv2 :: t2).map (fun q => (q.1, valueToJ q.2)))
                  ++ (rbrace :: rest))))))) := by
        simp [emitMembers, quoteStr, List.append_assoc]
      rw [hl, he, pma_step, parse_quoted_len]
      show (match parseVal (m + 2) (' ' :: (emitJ (valueToJ kv.2) ++ (',' :: ' ' ::
            (emitMembers ((kv2 :: t2).map (fun q => (q.1, valueToJ q.2)))
              ++ (rbrace :: rest))))) with
        | some (v, r4) =>
          (match skipWs r4 with
          | c3 :: r5 =>
            if c3.toNat = 44 then
              match parseMembersAux (parseVal (m + 2)) ((kv2 :: t2).length + j) r5 with
              | some (kvs, r6) => some ((kv.1, v) :: kvs, r6)
              | none => none
            else if c3.toNat = 125 then some ([(kv.1, v)], r5)
            else none
          | [] => none)
        | none => none) = _
      rw [pv_ws (m + 1), parse_valueToJ m kv.2]
      show (match parseMembersAux (parseVal (m + 2)) ((kv2 :: t2).length + j) (' ' ::
          (emitMembers ((kv2 :: t2).map (fun q => (q.1, valueToJ q.2)))
            ++ (rbrace :: rest))) with
        | some (kvs, r6) => some ((kv.1, valueToJ kv.2) :: kvs, r6)
        | none => none) = _
      have hyt : (kv2 :: t2).length + j = ((t2.length + j) + 1) := by
        simp only [List.length_cons]
        omega
      rw [hyt, pma_ws, ← hyt, ih (by simp) j]
      rfl

theorem members_val_len (kvs : List (String × Value)) :
    kvs.length ≤ (emitMembers (kvs.map (fun q => (q.1, valueToJ q.2)))).length := by
  induction kvs with
  | nil => simp [emitMembers]
  | cons kv t ih =>
    cases t with
    | nil =>
      simp [emitMembers, quoteStr_len]
      omega
    | cons kv2 t2 =>
      have h1 : emitMembers ((kv :: kv2 :: t2).map (fun q => (q.1, valueToJ q.2)))
          = quoteStr kv.1 ++ (':' :: ' ' :: emitJ (valueToJ kv.2)) ++ (',' :: ' ' ::
              emitMembers ((kv2 :: t2).map (fun q => (q.1, valueToJ q.2)))) := by
        simp [emitMembers, List.append_assoc]
      rw [h1]
      simp only [List.length_append, List.length_cons, quoteStr_len] at *
      omega

theorem pv_obj_str (m : Nat) (W : List Char) :
    parseVal (m + 1) (lbrace :: '"' :: W) =
      match parseMembersAux (parseVal m) ('"' :: W).length ('"' :: W) with
      | some (kvs, r3) => some (JValue.jobj (pyDict kvs), r3)
      | none => none := rfl

theorem parse_jobj_val (m : Nat) (kvs : List (String × Value)) (rest : List Char) :
    parseVal (m + 3) (emitJ (JValue.jobj (kvs.map (fun q => (q.1, valueToJ q.2)))) ++ rest)
      = some (JValue.jobj (pyDict (kvs.map (fun q => (q.1, valueToJ q.2)))), rest) := by
  cases kvs with
  | nil => rfl
  | cons kv t =>
    have hx : emitJ (JValue.jobj ((kv :: t).map (fun q => (q.1, valueToJ q.2)))) ++ rest
        = lbrace :: (emitMembers ((kv :: t).map (fun q => (q.1, valueToJ q.2)))
            ++ (rbrace :: rest)) := by
      simp [emitJ, List.append_assoc]
    obtain ⟨Z, hZ⟩ : ∃ Z, emitMembers ((kv :: t).map (fun q => (q.1, valueToJ q.2)))
        ++ (rbrace :: rest) = '"' :: Z := by
      cases t with
      | nil =>
        exact ⟨escStr kv.1 ++ ('"' :: ':' :: ' ' ::
            (emitJ (valueToJ kv.2) ++ (rbrace :: rest))),
          by simp [emitMembers, quoteStr, List.append_assoc]⟩
      | cons kv2 t2 =>
        exact ⟨escStr kv.1 ++ ('"' :: ':' :: ' ' :: (emitJ (valueToJ kv.2) ++ (',' :: ' ' ::
            (emitMembers ((kv2 :: t2).map (fun q => (q.1, valueToJ q.2)))
              ++ (rbrace :: rest))))),
          by simp [emitMembers, quoteStr, List.append_assoc]⟩
    rw [hx, hZ, pv_obj_str (m + 2) Z]
    have hbound : (kv :: t).length ≤ ('"' :: Z).length := by
      have h2 := congrArg List.length hZ
      have h3 := members_val_len (kv :: t)
      simp only [List.length_append, List.length_cons] at *
      omega
    have hfuel : ('"' :: Z).length = (kv :: t).length +
        (('"' :: Z).length - (kv :: t).length) := by omega
    rw [hfuel, ← hZ, parse_members_val m (kv :: t) rest (by simp)]

theorem members_agg_len (r : Agg) :
    r.length ≤ (emitMembers (r.map (fun p =>
      (p.1, JValue.jobj (p.2.map (fun q => (q.1, valueToJ q.2))))))).length := by
  induction r with
  | nil => simp [emitMembers]
  | cons p t ih =>
    cases t with
    | nil =>
      simp [emitMembers, quoteStr_len]
      omega
    | cons p2 t2 =>
      have h1 : emitMembers ((p :: p2 :: t2).map (fun p =>
            (p.1, JValue.jobj (p.2.map (fun q => (q.1, valueToJ q.2))))))
          = quoteStr p.1 ++ (':' :: ' ' ::
              emitJ (JValue.jobj (p.2.map (fun q => (q.1, valueToJ q.2))))) ++ (',' :: ' ' ::
              emitMembers ((p2 :: t2).map (fun p =>
                (p.1, JValue.jobj (p.2.map (fun q => (q.1, valueToJ q.2))))))) := by
        simp [emitMembers, List.append_assoc]
      rw [h1]
      simp only [List.length_append, List.length_cons, quoteStr_len] at *
      omega

theorem parse_members_agg (m : Nat) (r : Agg) (rest : List Char)
    (h : r ≠ []) : ∀ j,
    parseMembersAux (parseVal (m + 3)) (r.length + j)
      (emitMembers (r.map (fun p =>
        (p.1, JValue.jobj (p.2.map (fun q => (q.1, valueToJ q.2)))))) ++ (rbrace :: rest))
      = some (r.map (fun p =>
        (p.1, JValue.jobj (pyDict (p.2.map (fun q => (q.1, valueToJ q.2)))))), rest) := by
  induction r with
  | nil => exact absurd rfl h
  | cons p t ih =>
    intro j
    cases t with
    | nil =>
      have hl : ([p].length + j) = j + 1 := by
        simp only [List.length_cons, List.length_nil]
        omega
      have he : emitMembers ([p].map (fun p =>
            (p.1, JValue.jobj (p.2.map (fun q => (q.1, valueToJ q.2)))))) ++ (rbrace :: rest)
          = '"' :: (escStr p.1 ++ ('"' :: (':' :: ' ' ::
              (emitJ (JValue.jobj (p.2.map (fun q => (q.1, valueToJ q.2))))
                ++ (rbrace :: rest))))) := by
        simp [emitMembers, quoteStr, List.append_assoc]
      rw [hl, he, pma_step, parse_quoted_len]
      show (match parseVal (m + 3) (' ' ::
          (emitJ (JValue.jobj (p.2.map (fun q => (q.1, valueToJ q.2))))
            ++ (rbrace :: rest))) with
        | some (v, r4) =>
          (match skipWs r4 with
          | c3 :: r5 =>
            if c3.toNat = 44 then
              match parseMembersAux (parseVal (m + 3)) j r5 with
              | some (kvs, r6) => some ((p.1, v) :: kvs, r6)
              | none => none
            else if c3.toNat = 125 then some ([(p.1, v)], r5)
            else none
          | [] => none)
        | none => none) = _
      rw [pv_ws (m + 2), parse_jobj_val m p.2]
      rfl
    | cons p2 t2 =>
      have hl : ((p :: p2 :: t2).length + j) = ((p2 :: t2).length + j) + 1 := by
        simp only [List.length_cons]
        omega
      have he : emitMembers ((p :: p2 :: t2).map (fun p =>
            (p.1, JValue.jobj (p.2.map (fun q => (q.1, valueToJ q.2)))))) ++ (rbrace :: rest)
          = '"' :: (escStr p.1 ++ ('"' :: (':' :: ' ' ::
              (emitJ (JValue.jobj (p.2.map (fun q => (q.1, valueToJ q.2))))
                ++ (',' :: ' ' ::
                  (emitMembers ((p2 :: t2).map (fun p =>
                    (p.1, JValue.jobj (p.2.map (fun q => (q.1, valueToJ q.2))))))
                    ++ (rbrace :: rest))))))) := by
        simp [emitMembers, quoteStr, List.append_assoc]
      rw [hl, he, pma_step, parse_quoted_len]
      show (match parseVal (m + 3) (' ' ::
          (emitJ (JValue.jobj (p.2.map (fun q => (q.1, valueToJ q.2))))
            ++ (',' :: ' ' ::
              (emitMembers ((p2 :: t2).map (fun p =>
                (p.1, JValue.jobj (p.2.map (fun q => (q.1, valueToJ q.2))))))
                ++ (rbrace :: rest))))) with
        | some (v, r4) =>
          (match skipWs r4 with
          | c3 :: r5 =>
            if c3.toNat = 44 then
              match parseMembersAux (parseVal (m + 3)) ((p2 :: t2).length + j) r5 with
              | some (kvs, r6) => some ((p.1, v) :: kvs, r6)
              | none => none
            else if c3.toNat = 125 then some ([(p.1, v)], r5)
            else none
          | [] => none)
        | none => none) = _
      rw [pv_ws (m + 2), parse_jobj_val m p.2]
      show (match parseMembersAux (parseVal (m + 3)) ((p2 :: t2).length + j) (' ' ::
          (emitMembers ((p2 :: t2).map (fun p =>
            (p.1, JValue.jobj (p.2.map (fun q => (q.1, valueToJ q.2))))))
            ++ (rbrace :: rest))) with
        | some (kvs, r6) =>
          some ((p.1, JValue.jobj (pyDict (p.2.map
            (fun q : String × Value => (q.1, valueToJ q.2))))) :: kvs, r6)
        | none => none) = _
      have hyt : (p2 :: t2).length + j = ((t2.length + j) + 1) := by
        simp only [List.length_cons]
        omega
      rw [hyt, pma_ws, ← hyt, ih (by simp) j]
      rfl

theorem parse_resultToJ (m : Nat) (r : Agg) (rest : List Char) :
    parseVal (m + 4) (emitJ (resultToJ r) ++ rest)
      = some (JValue.jobj (pyDict (r.map (fun p =>
          (p.1, JValue.jobj (pyDict (p.2.map (fun q => (q.1, valueToJ q.2)))))))), rest) := by
  cases r with
  | nil => rfl
  | cons p t =>
    have hx : emitJ (resultToJ (p :: t)) ++ rest
        = lbrace :: (emitMembers ((p :: t).map (fun p =>
            (p.1, JValue.jobj (p.2.map (fun q => (q.1, valueToJ q.2))))))
            ++ (rbrace :: rest)) := by
      simp [resultToJ, emitJ, List.append_assoc]
    obtain ⟨Z, hZ⟩ : ∃ Z, emitMembers ((p :: t).map (fun p =>
          (p.1, JValue.jobj (p.2.map (fun q => (q.1, valueToJ q.2))))))
        ++ (rbrace :: rest) = '"' :: Z := by
      cases t with
      | nil =>
        exact ⟨escStr p.1 ++ ('"' :: ':' :: ' ' ::
            (emitJ (JValue.jobj (p.2.map (fun q => (q.1, valueToJ q.2))))
              ++ (rbrace :: rest))),
          by simp [emitMembers, quoteStr, List.append_assoc]⟩
      | cons p2 t2 =>
        exact ⟨escStr p.1 ++ ('"' :: ':' :: ' ' ::
            (emitJ (JValue.jobj (p.2.map (fun q => (q.1, valueToJ q.2))))
              ++ (',' :: ' ' ::
                (emitMembers ((p2 :: t2).map (fun p =>
                  (p.1, JValue.jobj (p.2.map (fun q => (q.1, valueToJ q.2))))))
                  ++ (rbrace :: rest))))),
          by simp [emitMembers, quoteStr, List.append_assoc]⟩
    rw [hx, hZ, pv_obj_str (m + 3) Z]
    have hbound : (p :: t).length ≤ ('"' :: Z).length := by
      have h2 := congrArg List.length hZ
      have h3 := members_agg_len (p :: t)
      simp only [List.length_append, List.length_cons] at *
      omega
    have hfuel : ('"' :: Z).length = (p :: t).length +
        (('"' :: Z).length - (p :: t).length) := by omega
    rw [hfuel, ← hZ, parse_members_agg m (p :: t) rest (by simp)]

theorem loads_dumps (r : Agg) :
    loads (dumps (resultToJ r))
      = some (JValue.jobj (pyDict (r.map (fun p =>
          (p.1, JValue.jobj (pyDict (p.2.map (fun q => (q.1, valueToJ q.2))))))))) := by
  cases r with
  | nil => rfl
  | cons p t =>
    have hdata : (dumps (resultToJ (p :: t))).data = emitJ (resultToJ (p :: t)) := rfl
    have hlen3 : 3 ≤ (dumps (resultToJ (p :: t))).length := by
      have hm := members_agg_len (p :: t)
      have hx : emitJ (resultToJ (p :: t))
          = lbrace :: (emitMembers ((p :: t).map (fun p =>
              (p.1, JValue.jobj (p.2.map (fun q => (q.1, valueToJ q.2)))))) ++ [rbrace]) := by
        simp [resultToJ, emitJ]
      have : (dumps (resultToJ (p :: t))).length = (emitJ (resultToJ (p :: t))).length := rfl
      rw [this, hx]
      simp only [List.length_cons, List.length_append]
      simp only [List.length_cons] at hm
      omega
    unfold loads
    have hfuel : (dumps (resultToJ (p :: t))).length + 1
        = ((dumps (resultToJ (p :: t))).length - 3) + 4 := by omega
    rw [hfuel, hdata]
    have happ : emitJ (resultToJ (p :: t)) = emitJ (resultToJ (p :: t)) ++ [] := by simp
    rw [happ, parse_resultToJ ((dumps (resultToJ (p :: t))).length - 3) (p :: t) []]
    rfl

theorem updA_append (l : List (String × JValue)) (k : String) (v : JValue)
    (h : ∀ p ∈ l, p.1 ≠ k) : updA l k v = l ++ [(k, v)] := by
  induction l with
  | nil => rfl
  | cons p t ih =>
    have hp : ¬ p.1 = k := h p (by simp)
    simp only [updA, hp, if_false]
    rw [ih (fun q hq => h q (by simp [hq]))]
    simp

theorem pyDict_acc (kvs : List (String × JValue)) :
    ∀ acc, (∀ p ∈ acc, ∀ q ∈ kvs, p.1 ≠ q.1) → (kvs.map Prod.fst).Nodup →
    kvs.foldl (fun acc kv => updA acc kv.1 kv.2) acc = acc ++ kvs := by
  induction kvs with
  | nil => intro acc _ _; simp
  | cons kv t ih =>
    intro acc hdisj hnd
    simp only [List.foldl_cons]
    rw [updA_append acc kv.1 kv.2 (fun p hp => hdisj p hp kv (by simp))]
    rw [ih (acc ++ [(kv.1, kv.2)]) ?_ ?_]
    · simp
    · intro p hp q hq
      rcases List.mem_append.mp hp with hp1 | hp2
      · exact hdisj p hp1 q (by simp [hq])
      · have hpk : p = (kv.1, kv.2) := by simpa using hp2
        subst hpk
        simp only [List.map_cons, List.nodup_cons] at hnd
        intro hEq
        exact hnd.1 (hEq ▸ List.mem_map_of_mem Prod.fst hq)
    · simp only [List.map_cons, List.nodup_cons] at hnd
      exact hnd.2

theorem pyDict_nodup (kvs : List (String × JValue)) (h : (kvs.map Prod.fst).Nodup) :
    pyDict kvs = kvs := by
  unfold pyDict
  rw [pyDict_acc kvs [] (by simp) h]
  simp

/-- Claim C7: serializing an aggregated result with `json.dumps` and
decoding the text with `json.loads` yields a mapping equal to the original,
for every result mapping entity strings to mappings from field names to a
string scalar or a sequence of string scalars (dict keys are distinct at
both levels, as Python dicts guarantee). -/
theorem c7_dumps_loads_roundtrip (r : Agg)
    (h1 : (r.map Prod.fst).Nodup)
    (h2 : ∀ p ∈ r, ((p.2 : FieldMap).map Prod.fst).Nodup) :
    loads (dumps (resultToJ r)) = some (resultToJ r) := by
  rw [loads_dumps]
  have hinner : r.map (fun p =>
      (p.1, JValue.jobj (pyDict (p.2.map (fun q => (q.1, valueToJ q.2))))))
      = r.map (fun p => (p.1, JValue.jobj (p.2.map (fun q => (q.1, valueToJ q.2))))) := by
    apply List.map_congr_left
    intro p hp
    have hnd : ((p.2.map (fun q => (q.1, valueToJ q.2))).map Prod.fst).Nodup := by
      have : (p.2.map (fun q => (q.1, valueToJ q.2))).map Prod.fst = p.2.map Prod.fst := by
        simp
      rw [this]
      exact h2 p hp
    rw [pyDict_nodup _ hnd]
  rw [hinner]
  have houter : ((r.map (fun p =>
      (p.1, JValue.jobj (p.2.map (fun q => (q.1, valueToJ q.2)))))).map Prod.fst).Nodup := by
    have : (r.map (fun p =>
        (p.1, JValue.jobj (p.2.map (fun q => (q.1, valueToJ q.2)))))).map Prod.fst
        = r.map Prod.fst := by simp
    rw [this]
    exact h1
  rw [pyDict_nodup _ houter]
  rfl

/-- Witness for C7 at a concrete two-entity result with a scalar and an
array-valued field. -/
theorem c7_witness :
    loads (dumps (resultToJ rcSample)) = some (resultToJ rcSample) :=
  c7_dumps_loads_roundtrip rcSample (by decide) (by decide)
